import Mathlib

/-!
Shallow embedding of `setupext/janitor.py` (the `CleanCommand` distutils
extension) and proofs about its specified behavior.

The Python command reads boolean/string options, resolves directory paths by
inspecting the distribution's sub-commands and the `VIRTUAL_ENV` environment
variable, accumulates a set of target directories, and removes each existing
target (announcing a skip for the missing ones).  The base `clean` command's
own behavior is out of scope and is not modelled; only the janitor extension's
contribution is.
-/

namespace Janitor

/-- Messages observable during the removal loop: `dir_util.remove_tree` logs a
"removing ..." line (also under `--dry-run`, where it then returns without
mutating), and `CleanCommand.run` announces a "skipping ..." line for a target
that does not exist. -/
inductive Msg where
  | removing (path : String)
  | skipping (path : String)
deriving DecidableEq

/-- The path a message is about. -/
def Msg.path : Msg → String
  | .removing p => p
  | .skipping p => p

/-- The options of `CleanCommand` after parsing: the three janitor booleans,
the two optional string options, and the inherited global `dry_run` flag.
`none` models a Python attribute left at `None`. -/
structure Config where
  dist : Bool
  eggs : Bool
  environment : Bool
  egg_base : Option String
  virtualenv_dir : Option String
  dry_run : Bool
deriving DecidableEq

/-- A registered sub-command as seen by `run`: its registry name and the
`dist_dir` attribute of its (ensure-finalized) command object; `none` models a
command object with no `dist_dir` attribute (`getattr(command, 'dist_dir',
None)`). -/
structure SubCmd where
  name : String
  dist_dir : Option String
deriving DecidableEq

/-- The host distribution: `get_command_list()` paired with
`get_command_obj`, modelled as the list of registered sub-commands. -/
structure Distribution where
  commands : List SubCmd
deriving DecidableEq

/-- The filesystem as the command observes it: `os.listdir` (which fails with
`none` when the directory is missing or unreadable) and `os.path.exists`.
Directory listings are only consulted before any removal happens, so removal
updates only the existence predicate. -/
structure FS where
  listings : String → Option (List String)
  pathExists : String → Bool

/-- Python truthiness of an optional string: `None` and `''` are falsy. -/
def truthy : Option String → Bool
  | none => false
  | some s => s != ""

/-- Whether `pre` is a prefix of `s`, computed on the character lists. -/
def strStartsWith (s pre : String) : Bool :=
  pre.toList.isPrefixOf s.toList

/-- Whether `post` is a suffix of `s`, computed on the character lists
(Python's `str.endswith`). -/
def strEndsWith (s post : String) : Bool :=
  post.toList.isSuffixOf s.toList

/-- `os.path.join` for two POSIX path components. -/
def osPathJoin (base name : String) : String :=
  if strStartsWith name "/" then name
  else if base = "" then name
  else if strEndsWith base "/" then base ++ name
  else base ++ "/" ++ name

/-- Python's substring test `needle in hay`. -/
def strContains (hay needle : String) : Bool :=
  decide (needle.toList <:+: hay.toList)

/-- `dir_names.add(...)` on a Python `set`, modelled as an insertion-ordered
list in which duplicates collapse. -/
def addTarget (ts : List String) (p : String) : List String :=
  if p ∈ ts then ts else ts ++ [p]

/-- One conditional-add step of a target-accumulation loop: when `cond x`
holds, add `f x` to the target set. -/
def condAdd (cond : α → Bool) (f : α → String) (ts : List String) (x : α) :
    List String :=
  if cond x then addTarget ts (f x) else ts

/-- The `dist` branch keeps a sub-command whose registry name contains the
substring `"dist"` and whose command object has a non-empty (truthy)
`dist_dir`. -/
def distDirCond (cmd : SubCmd) : Bool :=
  strContains cmd.name "dist" && truthy cmd.dist_dir

/-- The value added for such a sub-command: its `dist_dir` (truthiness
guarantees it is a `some`, so the default is never used). -/
def distDirVal (cmd : SubCmd) : String := cmd.dist_dir.getD ""

/-- The egg-info scan keeps directory entries whose name ends in
`.egg-info`. -/
def eggInfoCond (name : String) : Bool := strEndsWith name ".egg-info"

/-- The cwd scan keeps directory entries whose name ends in `.egg`. -/
def eggCond (name : String) : Bool := strEndsWith name ".egg"

/-- The directory scanned for `.egg-info` entries.  `run` executes after
`finalize_options`, which always leaves `egg_base` set; `os.listdir(None)`
falls back to the current working directory, written `"."`. -/
def eggBaseDir (c : Config) : String := c.egg_base.getD "."

/-- `if self.environment and self.virtualenv_dir: dir_names.add(...)`. -/
def envAdd (c : Config) (ts : List String) : List String :=
  if c.environment && truthy c.virtualenv_dir then
    addTarget ts (c.virtualenv_dir.getD "")
  else ts

/-- An uncaught `OSError` from `os.listdir` while building the target set. -/
inductive RunError where
  | listdirFailed (path : String)
deriving DecidableEq

/-- The `if self.dist:` scan over the registered sub-commands. -/
def distTargets (c : Config) (d : Distribution) : List String :=
  if c.dist then d.commands.foldl (condAdd distDirCond distDirVal) [] else []

/-- The `if self.eggs:` scans: `.egg-info` entries of `egg_base` (joined with
it), then `.egg` entries of the current working directory (as given). -/
def eggTargets (c : Config) (names cwdNames : List String)
    (ts : List String) : List String :=
  cwdNames.foldl (condAdd eggCond id)
    (names.foldl (condAdd eggInfoCond (osPathJoin (eggBaseDir c))) ts)

/-- The target-set computation of `CleanCommand.run` (the lines building
`dir_names`): the `dist` sub-command scan, the `.egg-info` / `.egg` scans, and
the virtualenv directory. -/
def CleanCommand.buildTargets (c : Config) (d : Distribution) (fs : FS) :
    Except RunError (List String) :=
  if c.eggs then
    match fs.listings (eggBaseDir c) with
    | none => Except.error (RunError.listdirFailed (eggBaseDir c))
    | some names =>
      match fs.listings "." with
      | none => Except.error (RunError.listdirFailed ".")
      | some cwdNames =>
        Except.ok (envAdd c (eggTargets c names cwdNames (distTargets c d)))
  else Except.ok (envAdd c (distTargets c d))

/-- A path is the removed directory itself or lies underneath it. -/
def pathUnder (r q : String) : Bool :=
  q == r || strStartsWith q (r ++ "/")

/-- `dir_util.remove_tree`: the directory and everything under it stop
existing. -/
def FS.removeTree (fs : FS) (p : String) : FS :=
  { fs with pathExists := fun q => if pathUnder p q then false else fs.pathExists q }

/-- The removal loop of `CleanCommand.run`: for each target, if it exists,
`remove_tree` it (which logs a removing message and, unless `dry_run`,
mutates); otherwise announce a skip.  Returns the final filesystem, the paths
actually removed, and the messages in order. -/
def removeLoop (dry : Bool) : List String → FS → FS × List String × List Msg
  | [], fs => (fs, [], [])
  | p :: rest, fs =>
    if fs.pathExists p then
      if dry then
        let out := removeLoop dry rest fs
        (out.1, out.2.1, Msg.removing p :: out.2.2)
      else
        let out := removeLoop dry rest (fs.removeTree p)
        (out.1, p :: out.2.1, Msg.removing p :: out.2.2)
    else
      let out := removeLoop dry rest fs
      (out.1, out.2.1, Msg.skipping p :: out.2.2)

/-- Everything observable about one `run` invocation beyond the base clean
behavior. -/
structure RunResult where
  targets : List String
  removed : List String
  msgs : List Msg
  fs : FS

/-- `CleanCommand.run`, after the (unmodelled) base `clean` run: build the
target set, then remove or skip each target. -/
def CleanCommand.run (c : Config) (d : Distribution) (fs : FS) :
    Except RunError RunResult :=
  match CleanCommand.buildTargets c d fs with
  | .error e => .error e
  | .ok ts =>
    let out := removeLoop c.dry_run ts fs
    .ok { targets := ts, removed := out.2.1, msgs := out.2.2, fs := out.1 }

/-- The target set of a run, empty when the run raised. -/
def targetsOf : Except RunError RunResult → List String
  | .ok r => r.targets
  | .error _ => []

/-- The directories a run actually removed, empty when the run raised. -/
def removedOf : Except RunError RunResult → List String
  | .ok r => r.removed
  | .error _ => []

/-- The messages a run announced, empty when the run raised. -/
def msgsOf : Except RunError RunResult → List Msg
  | .ok r => r.msgs
  | .error _ => []

/-- The filesystem after a run; a raising run never reached the removal loop,
so the filesystem is the initial one. -/
def fsOf : Except RunError RunResult → FS → FS
  | .ok r, _ => r.fs
  | .error _, fs => fs

/-- The `set_undefined_options('egg_info', ('egg_base', 'egg_base'))` attempt:
`sibling` is either a raised `DistutilsError` (swallowed, leaving `egg_base`
as it was) or the sibling egg-info command's own `egg_base`; the mechanism
only fills an option that is still `None`. -/
def adoptEggBase (egg_base : Option String)
    (sibling : Except Unit (Option String)) : Option String :=
  match sibling with
  | .error _ => egg_base
  | .ok sib =>
    match egg_base with
    | some b => some b
    | none => sib

/-- `CleanCommand.finalize_options`, after the (unmodelled) base
finalization: adopt `egg_base` from the sibling egg-info command, default it
to `os.curdir`, and default `virtualenv_dir` to `os.environ.get('VIRTUAL_ENV',
None)` when `--environment` was requested. -/
def CleanCommand.finalize_options (c : Config)
    (sibling : Except Unit (Option String)) (virtualEnv : Option String) :
    Config :=
  let eb := adoptEggBase c.egg_base sibling
  { c with
    egg_base := if eb.isNone then some "." else eb
    virtualenv_dir :=
      if c.environment && c.virtualenv_dir.isNone then virtualEnv
      else c.virtualenv_dir }

/-! ### Concrete sample inputs used to instantiate the theorems -/

/-- A filesystem with no listable directories and no existing paths. -/
def fsEmpty : FS := ⟨fun _ => none, fun _ => false⟩

/-- A distribution with no registered sub-commands. -/
def distEmpty : Distribution := ⟨[]⟩

/-- A configuration with every janitor flag off. -/
def cfgNoFlags : Config := ⟨false, false, false, none, none, false⟩

/-- Dry run with `--dist --eggs --egg-base=pkg`: the dist scan contributes
`pkg` itself while the egg scan contributes `pkg/foo.egg-info`, a target
nested inside another target. -/
def cfgNested : Config := ⟨true, true, false, some "pkg", none, true⟩

/-- One registered sub-command whose name contains `dist` and whose
`dist_dir` is `pkg`. -/
def distNested : Distribution := ⟨[⟨"bdist", some "pkg"⟩]⟩

/-- `pkg` holds one `.egg-info` entry, the cwd holds nothing, and every path
exists. -/
def fsNested : FS :=
  ⟨fun p => if p = "pkg" then some ["foo.egg-info"]
            else if p = "." then some [] else none,
   fun _ => true⟩

/-- Dry run with only `--environment` and an explicit virtualenv dir. -/
def cfgDryEnv : Config := ⟨false, false, true, none, some "venv", true⟩

/-- Only the path `venv` exists; nothing is listable. -/
def fsVenv : FS := ⟨fun _ => none, fun p => p == "venv"⟩

/-- `--eggs` with `--egg-base=pkg`. -/
def cfgEggs : Config := ⟨false, true, false, some "pkg", none, false⟩

/-- `pkg` holds `foo.egg-info` and `bar.txt`; the cwd holds `baz.egg`. -/
def fsEggs : FS :=
  ⟨fun p => if p = "pkg" then some ["foo.egg-info", "bar.txt"]
            else if p = "." then some ["baz.egg"] else none,
   fun _ => true⟩

/-- Only `--dist`. -/
def cfgDist : Config := ⟨true, false, false, none, none, false⟩

/-- Sub-commands exercising every `dist` branch: a match with a directory, a
match with no `dist_dir` attribute, a match with an empty one, and a
non-match. -/
def distMixed : Distribution :=
  ⟨[⟨"bdist", some "build/out"⟩, ⟨"sdist", none⟩, ⟨"xdist", some ""⟩,
    ⟨"build", some "elsewhere"⟩]⟩

/-- Only `--environment`, with no explicit virtualenv dir. -/
def cfgEnv : Config := ⟨false, false, true, none, none, false⟩

/-- `--dist` discovering one existing and one missing target. -/
def distSkip : Distribution := ⟨[⟨"bdist", some "out1"⟩, ⟨"sdist", some "gone"⟩]⟩

/-- Only the path `out1` exists. -/
def fsSkip : FS := ⟨fun _ => none, fun p => p == "out1"⟩

/-- An explicitly supplied `--egg-base=custom`. -/
def cfgEggBase : Config := ⟨false, false, false, some "custom", none, false⟩

/-- `--eggs` with an `egg_base` that does not exist on the filesystem. -/
def cfgEggsMissing : Config := ⟨false, true, false, some "nope", none, false⟩

/-! ### Helper lemmas about target accumulation -/

theorem mem_addTarget {ts : List String} {p q : String} :
    q ∈ addTarget ts p ↔ q ∈ ts ∨ q = p := by
  by_cases h : p ∈ ts
  · simp only [addTarget, if_pos h]
    exact ⟨Or.inl, fun hq => hq.elim id (fun e => e ▸ h)⟩
  · simp [addTarget, if_neg h]

theorem nodup_addTarget {ts : List String} (p : String) (h : ts.Nodup) :
    (addTarget ts p).Nodup := by
  by_cases hp : p ∈ ts
  · simpa [addTarget, if_pos hp] using h
  · simp [addTarget, if_neg hp, List.nodup_append, h, hp]

theorem mem_foldl_condAdd {α : Type} (cond : α → Bool) (f : α → String)
    (l : List α) (init : List String) (q : String) :
    q ∈ l.foldl (condAdd cond f) init ↔
      q ∈ init ∨ ∃ x, x ∈ l ∧ cond x = true ∧ f x = q := by
  induction l generalizing init with
  | nil => simp
  | cons a l ih =>
    simp only [List.foldl_cons, ih, condAdd, List.mem_cons]
    by_cases h : cond a = true
    · simp only [if_pos h, mem_addTarget]
      constructor
      · rintro ((hq | rfl) | ⟨x, hx, hc, hf⟩)
        · exact Or.inl hq
        · exact Or.inr ⟨a, Or.inl rfl, h, rfl⟩
        · exact Or.inr ⟨x, Or.inr hx, hc, hf⟩
      · rintro (hq | ⟨x, (rfl | hx), hc, hf⟩)
        · exact Or.inl (Or.inl hq)
        · exact Or.inl (Or.inr hf.symm)
        · exact Or.inr ⟨x, hx, hc, hf⟩
    · simp only [if_neg h]
      constructor
      · rintro (hq | ⟨x, hx, hc, hf⟩)
        · exact Or.inl hq
        · exact Or.inr ⟨x, Or.inr hx, hc, hf⟩
      · rintro (hq | ⟨x, (rfl | hx), hc, hf⟩)
        · exact Or.inl hq
        · exact absurd hc h
        · exact Or.inr ⟨x, hx, hc, hf⟩

theorem nodup_foldl_condAdd {α : Type} (cond : α → Bool) (f : α → String)
    (l : List α) (init : List String) (h : init.Nodup) :
    (l.foldl (condAdd cond f) init).Nodup := by
  induction l generalizing init with
  | nil => simpa
  | cons a l ih =>
    refine ih _ ?_
    unfold condAdd
    split
    · exact nodup_addTarget _ h
    · exact h

theorem envAdd_of_not_env {c : Config} (ts : List String)
    (h : c.environment = false) : envAdd c ts = ts := by
  simp [envAdd, h]

theorem mem_envAdd_self {c : Config} (ts : List String) {v : String}
    (henv : c.environment = true) (h : c.virtualenv_dir = some v)
    (hv : v ≠ "") : v ∈ envAdd c ts := by
  simp [envAdd, henv, h, truthy, hv, mem_addTarget]

theorem nodup_envAdd (c : Config) {ts : List String} (h : ts.Nodup) :
    (envAdd c ts).Nodup := by
  unfold envAdd
  split
  · exact nodup_addTarget _ h
  · exact h

theorem distTargets_of_not_dist {c : Config} (d : Distribution)
    (h : c.dist = false) : distTargets c d = [] := by
  simp [distTargets, h]

theorem mem_distTargets {c : Config} {d : Distribution} {q : String}
    (h : c.dist = true) :
    q ∈ distTargets c d ↔
      ∃ cmd, cmd ∈ d.commands ∧ distDirCond cmd = true ∧ distDirVal cmd = q := by
  simp [distTargets, h, mem_foldl_condAdd]

theorem nodup_distTargets (c : Config) (d : Distribution) :
    (distTargets c d).Nodup := by
  unfold distTargets
  split
  · exact nodup_foldl_condAdd _ _ _ _ List.nodup_nil
  · exact List.nodup_nil

theorem mem_eggTargets {c : Config} {names cwdNames ts : List String}
    {q : String} :
    q ∈ eggTargets c names cwdNames ts ↔
      q ∈ ts ∨
      (∃ n, n ∈ names ∧ eggInfoCond n = true ∧ osPathJoin (eggBaseDir c) n = q) ∨
      (∃ n, n ∈ cwdNames ∧ eggCond n = true ∧ n = q) := by
  simp only [eggTargets, mem_foldl_condAdd, id_eq]
  exact or_assoc

theorem nodup_eggTargets (c : Config) (names cwdNames : List String)
    {ts : List String} (h : ts.Nodup) :
    (eggTargets c names cwdNames ts).Nodup :=
  nodup_foldl_condAdd _ _ _ _ (nodup_foldl_condAdd _ _ _ _ h)

/-- Each sub-command contributes its `dist_dir` exactly when its name contains
`"dist"` and the attribute is present and non-empty. -/
theorem distDirCond_val_iff (cmd : SubCmd) (q : String) :
    (distDirCond cmd = true ∧ distDirVal cmd = q) ↔
      (strContains cmd.name "dist" = true ∧ cmd.dist_dir = some q ∧ q ≠ "") := by
  cases h : cmd.dist_dir with
  | none => simp [distDirCond, distDirVal, truthy, h]
  | some s =>
    simp only [distDirCond, distDirVal, truthy, h, Option.getD_some,
      Bool.and_eq_true, bne_iff_ne, ne_eq, Option.some_inj]
    constructor
    · rintro ⟨⟨hc, hs⟩, rfl⟩
      exact ⟨hc, rfl, hs⟩
    · rintro ⟨hc, rfl, hs⟩
      exact ⟨⟨hc, hs⟩, rfl⟩

/-! ### Helper lemmas about `buildTargets` -/

theorem buildTargets_eggs_false {c : Config} (d : Distribution) (fs : FS)
    (h : c.eggs = false) :
    CleanCommand.buildTargets c d fs =
      Except.ok (envAdd c (distTargets c d)) := by
  simp [CleanCommand.buildTargets, h]

theorem buildTargets_eggs_true {c : Config} {d : Distribution} {fs : FS}
    {names cwdNames : List String} (h : c.eggs = true)
    (h1 : fs.listings (eggBaseDir c) = some names)
    (h2 : fs.listings "." = some cwdNames) :
    CleanCommand.buildTargets c d fs =
      Except.ok (envAdd c (eggTargets c names cwdNames (distTargets c d))) := by
  simp [CleanCommand.buildTargets, h, h1, h2]

theorem buildTargets_listdir_error {c : Config} (d : Distribution) {fs : FS}
    (h : c.eggs = true) (h1 : fs.listings (eggBaseDir c) = none) :
    CleanCommand.buildTargets c d fs =
      Except.error (RunError.listdirFailed (eggBaseDir c)) := by
  simp [CleanCommand.buildTargets, h, h1]

theorem buildTargets_ok_nodup {c : Config} {d : Distribution} {fs : FS}
    {ts : List String} (h : CleanCommand.buildTargets c d fs = .ok ts) :
    ts.Nodup := by
  unfold CleanCommand.buildTargets at h
  split at h
  · split at h
    · exact absurd h (by simp)
    · split at h
      · exact absurd h (by simp)
      · cases h
        exact nodup_envAdd _ (nodup_eggTargets _ _ _ (nodup_distTargets _ _))
  · cases h
    exact nodup_envAdd _ (nodup_distTargets _ _)

theorem buildTargets_ok_shape {c : Config} {d : Distribution} {fs : FS}
    {ts : List String} (h : CleanCommand.buildTargets c d fs = .ok ts) :
    ∃ ts0, ts = envAdd c ts0 := by
  unfold CleanCommand.buildTargets at h
  split at h
  · split at h
    · exact absurd h (by simp)
    · split at h
      · exact absurd h (by simp)
      · cases h
        exact ⟨_, rfl⟩
  · cases h
    exact ⟨_, rfl⟩

/-- The target-set computation never reads `dry_run`. -/
theorem buildTargets_dry_run_irrel (c : Config) (d : Distribution) (fs : FS)
    (b : Bool) :
    CleanCommand.buildTargets { c with dry_run := b } d fs =
      CleanCommand.buildTargets c d fs := rfl

/-! ### Helper lemmas about the removal loop -/

theorem pathExists_removeTree_of_not_under {p q : String} (fs : FS)
    (h : pathUnder p q = false) :
    (fs.removeTree p).pathExists q = fs.pathExists q := by
  simp [FS.removeTree, h]

theorem pathExists_removeTree_false {q : String} {fs : FS}
    (h : fs.pathExists q = false) (p : String) :
    (fs.removeTree p).pathExists q = false := by
  simp only [FS.removeTree]
  split
  · rfl
  · exact h

theorem removeLoop_msgs_path (dry : Bool) (ts : List String) (fs : FS) :
    ((removeLoop dry ts fs).2.2).map Msg.path = ts := by
  induction ts generalizing fs with
  | nil => rfl
  | cons p rest ih =>
    cases dry <;> by_cases h : fs.pathExists p = true <;>
      simp [removeLoop, h, Msg.path, ih]

theorem removeLoop_removed_sublist (dry : Bool) (ts : List String) (fs : FS) :
    List.Sublist (removeLoop dry ts fs).2.1 ts := by
  induction ts generalizing fs with
  | nil => simp [removeLoop]
  | cons p rest ih =>
    cases dry with
    | false =>
      by_cases h : fs.pathExists p = true
      · simpa [removeLoop, h] using (ih (fs.removeTree p)).cons₂ p
      · simpa [removeLoop, h] using (ih fs).cons p
    | true =>
      by_cases h : fs.pathExists p = true
      · simpa [removeLoop, h] using (ih fs).cons p
      · simpa [removeLoop, h] using (ih fs).cons p

theorem removeLoop_dry_fs (ts : List String) (fs : FS) :
    (removeLoop true ts fs).1 = fs := by
  induction ts generalizing fs with
  | nil => rfl
  | cons p rest ih =>
    by_cases h : fs.pathExists p = true
    · simp [removeLoop, h, ih]
    · simp [removeLoop, h, ih]

theorem removeLoop_dry_removed (ts : List String) (fs : FS) :
    (removeLoop true ts fs).2.1 = [] := by
  induction ts generalizing fs with
  | nil => rfl
  | cons p rest ih =>
    by_cases h : fs.pathExists p = true
    · simp [removeLoop, h, ih]
    · simp [removeLoop, h, ih]

theorem removeLoop_dry_msgs (ts : List String) (fs : FS) :
    (removeLoop true ts fs).2.2 =
      ts.map (fun p => if fs.pathExists p then Msg.removing p
                       else Msg.skipping p) := by
  induction ts generalizing fs with
  | nil => rfl
  | cons p rest ih =>
    by_cases h : fs.pathExists p = true
    · simp [removeLoop, h, ih]
    · simp [removeLoop, h, ih]

theorem not_mem_removeLoop_removed {ts : List String} {fs : FS} {p : String}
    (h : fs.pathExists p = false) :
    p ∉ (removeLoop false ts fs).2.1 := by
  induction ts generalizing fs with
  | nil => simp [removeLoop]
  | cons a rest ih =>
    by_cases ha : fs.pathExists a = true
    · have hap : ¬(p = a) := fun e => by rw [e, ha] at h; cases h
      simp only [removeLoop, ha, if_true, Bool.false_eq_true, if_false,
        List.mem_cons, not_or]
      exact ⟨hap, ih (pathExists_removeTree_false h a)⟩
    · have ha' : fs.pathExists a = false := by simpa using ha
      simpa [removeLoop, ha'] using ih h

theorem skipping_mem_removeLoop {ts : List String} {fs : FS} {p : String}
    (hmem : p ∈ ts) (h : fs.pathExists p = false) :
    Msg.skipping p ∈ (removeLoop false ts fs).2.2 := by
  induction ts generalizing fs with
  | nil => cases hmem
  | cons a rest ih =>
    rcases List.mem_cons.mp hmem with rfl | hmem'
    · simp [removeLoop, h]
    · by_cases ha : fs.pathExists a = true
      · simp only [removeLoop, ha, if_true]
        simp only [Bool.false_eq_true, if_false, List.mem_cons]
        exact Or.inr (ih hmem' (pathExists_removeTree_false h a))
      · have ha' : fs.pathExists a = false := by simpa using ha
        simp only [removeLoop, ha', Bool.false_eq_true, if_false,
          List.mem_cons]
        exact Or.inr (ih hmem' h)

theorem mem_removeLoop_removed {ts : List String} {fs : FS} {q : String}
    (hmem : q ∈ ts) (hex : fs.pathExists q = true)
    (hsep : ∀ r ∈ ts, r ≠ q → pathUnder r q = false) :
    q ∈ (removeLoop false ts fs).2.1 := by
  induction ts generalizing fs with
  | nil => cases hmem
  | cons a rest ih =>
    by_cases haq : a = q
    · subst haq
      simp [removeLoop, hex]
    · have hu : pathUnder a q = false :=
        hsep a (List.mem_cons_self a rest) haq
      have hmem' : q ∈ rest :=
        (List.mem_cons.mp hmem).resolve_left (fun e => haq e.symm)
      have hsep' : ∀ r ∈ rest, r ≠ q → pathUnder r q = false :=
        fun r hr => hsep r (List.mem_cons_of_mem a hr)
      by_cases ha : fs.pathExists a = true
      · have hex' : (fs.removeTree a).pathExists q = true := by
          rw [pathExists_removeTree_of_not_under fs hu]; exact hex
        simpa [removeLoop, ha] using Or.inr (ih hmem' hex' hsep')
      · have ha' : fs.pathExists a = false := by simpa using ha
        simpa [removeLoop, ha'] using ih hmem' hex hsep'

theorem removeLoop_wet_msgs {ts : List String} {fs : FS} (hnd : ts.Nodup)
    (hex : ∀ p ∈ ts, fs.pathExists p = true)
    (hsep : ∀ p ∈ ts, ∀ q ∈ ts, p ≠ q → pathUnder p q = false) :
    (removeLoop false ts fs).2.2 = ts.map Msg.removing := by
  induction ts generalizing fs with
  | nil => rfl
  | cons a rest ih =>
    obtain ⟨hna, hnd'⟩ := List.nodup_cons.mp hnd
    have ha : fs.pathExists a = true := hex a (List.mem_cons_self a rest)
    have hex' : ∀ p ∈ rest, (fs.removeTree a).pathExists p = true := by
      intro p hp
      have hne : a ≠ p := fun e => hna (e ▸ hp)
      rw [pathExists_removeTree_of_not_under fs
        (hsep a (List.mem_cons_self a rest) p (List.mem_cons_of_mem a hp) hne)]
      exact hex p (List.mem_cons_of_mem a hp)
    have hsep' : ∀ p ∈ rest, ∀ q ∈ rest, p ≠ q → pathUnder p q = false :=
      fun p hp q hq => hsep p (List.mem_cons_of_mem a hp) q
        (List.mem_cons_of_mem a hq)
    simp [removeLoop, ha, ih hnd' hex' hsep']

theorem envAdd_of_venv_none {c : Config} (ts : List String)
    (h : c.virtualenv_dir = none) : envAdd c ts = ts := by
  simp [envAdd, h, truthy]

theorem finalize_options_dist (c : Config) (sib : Except Unit (Option String))
    (venv : Option String) :
    (CleanCommand.finalize_options c sib venv).dist = c.dist := rfl

theorem finalize_options_eggs (c : Config) (sib : Except Unit (Option String))
    (venv : Option String) :
    (CleanCommand.finalize_options c sib venv).eggs = c.eggs := rfl

theorem finalize_options_environment (c : Config)
    (sib : Except Unit (Option String)) (venv : Option String) :
    (CleanCommand.finalize_options c sib venv).environment = c.environment :=
  rfl

/-! ### Claim theorems -/

/-- C1: when `dist`, `eggs` and `environment` are all false, `run` builds an
empty target set, removes no directory, announces nothing and leaves the
filesystem untouched — zero removals beyond the inherited base clean
behavior. -/
theorem claim_run_without_flags_is_noop (c : Config) (d : Distribution)
    (fs : FS) (h1 : c.dist = false) (h2 : c.eggs = false)
    (h3 : c.environment = false) :
    CleanCommand.run c d fs =
      Except.ok { targets := [], removed := [], msgs := [], fs := fs } := by
  have hb : CleanCommand.buildTargets c d fs = Except.ok [] := by
    rw [buildTargets_eggs_false d fs h2, distTargets_of_not_dist d h1,
      envAdd_of_not_env [] h3]
  simp [CleanCommand.run, hb, removeLoop]

theorem claim_run_without_flags_is_noop_witness :
    CleanCommand.run cfgNoFlags distEmpty fsEmpty =
      Except.ok { targets := [], removed := [], msgs := [], fs := fsEmpty } :=
  claim_run_without_flags_is_noop cfgNoFlags distEmpty fsEmpty rfl rfl rfl

/-- C9: an explicitly supplied `egg_base` survives `finalize_options`
unchanged, whatever the sibling egg-info command defines. -/
theorem claim_explicit_egg_base_preserved (c : Config)
    (sib : Except Unit (Option String)) (venv : Option String) (b : String)
    (h : c.egg_base = some b) :
    (CleanCommand.finalize_options c sib venv).egg_base = some b := by
  cases sib <;> simp [CleanCommand.finalize_options, adoptEggBase, h]

theorem claim_explicit_egg_base_preserved_witness :
    (CleanCommand.finalize_options cfgEggBase (Except.ok (some "other"))
      none).egg_base = some "custom" :=
  claim_explicit_egg_base_preserved cfgEggBase (Except.ok (some "other"))
    none "custom" rfl

/-- C7: a failed sibling egg-info lookup is swallowed — finalization behaves
exactly as if the sibling defined nothing — and whenever `egg_base` is still
unset after the adoption attempt it defaults to the current directory. -/
theorem claim_sibling_error_swallowed (c : Config) (venv : Option String) :
    CleanCommand.finalize_options c (Except.error ()) venv =
      CleanCommand.finalize_options c (Except.ok none) venv ∧
    (∀ sib, adoptEggBase c.egg_base sib = none →
      (CleanCommand.finalize_options c sib venv).egg_base = some ".") := by
  constructor
  · cases h : c.egg_base <;>
      simp [CleanCommand.finalize_options, adoptEggBase, h]
  · intro sib h
    simp [CleanCommand.finalize_options, h]

theorem claim_sibling_error_swallowed_witness :
    CleanCommand.finalize_options cfgNoFlags (Except.error ()) none =
      CleanCommand.finalize_options cfgNoFlags (Except.ok none) none ∧
    (CleanCommand.finalize_options cfgNoFlags (Except.error ())
      none).egg_base = some "." := by
  have h := claim_sibling_error_swallowed cfgNoFlags none
  exact ⟨h.1, h.2 (Except.error ()) rfl⟩

/-- C8: the target set collapses duplicates — a path contributed by several
sources appears once, is removed at most once, and receives exactly one
announcement per invocation. -/
theorem claim_targets_dedup (c : Config) (d : Distribution) (fs : FS) :
    (targetsOf (CleanCommand.run c d fs)).Nodup ∧
    (removedOf (CleanCommand.run c d fs)).Nodup ∧
    (msgsOf (CleanCommand.run c d fs)).map Msg.path =
      targetsOf (CleanCommand.run c d fs) := by
  cases hb : CleanCommand.buildTargets c d fs with
  | error e => simp [CleanCommand.run, hb, targetsOf, removedOf, msgsOf]
  | ok ts =>
    have hnd := buildTargets_ok_nodup hb
    refine ⟨?_, ?_, ?_⟩ <;> simp [CleanCommand.run, hb, targetsOf, removedOf, msgsOf]
    · exact hnd
    · exact (removeLoop_removed_sublist c.dry_run ts fs).nodup hnd
    · exact removeLoop_msgs_path c.dry_run ts fs

/-- C10: with `--eggs` set and an `egg_base` directory that cannot be listed,
`run` propagates the listing error before any janitor removal is attempted
and the filesystem is untouched — the absent-path tolerance covers removal
targets only, not the scanned `egg_base`. -/
theorem claim_missing_egg_base_errors (c : Config) (d : Distribution)
    (fs : FS) (base : String) (heggs : c.eggs = true)
    (hbase : c.egg_base = some base) (h : fs.listings base = none) :
    CleanCommand.run c d fs = Except.error (RunError.listdirFailed base) ∧
    fsOf (CleanCommand.run c d fs) fs = fs := by
  have hbd : eggBaseDir c = base := by simp [eggBaseDir, hbase]
  have hb := buildTargets_listdir_error d heggs (hbd ▸ h)
  rw [hbd] at hb
  constructor
  · simp [CleanCommand.run, hb]
  · simp [CleanCommand.run, hb, fsOf]

theorem claim_missing_egg_base_errors_witness :
    CleanCommand.run cfgEggsMissing distEmpty fsEmpty =
      Except.error (RunError.listdirFailed "nope") ∧
    fsOf (CleanCommand.run cfgEggsMissing distEmpty fsEmpty) fsEmpty =
      fsEmpty :=
  claim_missing_egg_base_errors cfgEggsMissing distEmpty fsEmpty "nope"
    rfl rfl rfl

/-- C3: with `--eggs` (and the other flags off), the target set holds exactly
the entries of `egg_base` whose name ends in `.egg-info`, joined with
`egg_base`, plus the entries of the current working directory whose name ends
in `.egg`, as given; entries with other names contribute nothing. -/
theorem claim_eggs_targets (c : Config) (d : Distribution) (fs : FS)
    (base : String) (names cwdNames : List String) (q : String)
    (heggs : c.eggs = true) (hdist : c.dist = false)
    (henv : c.environment = false) (hbase : c.egg_base = some base)
    (h1 : fs.listings base = some names)
    (h2 : fs.listings "." = some cwdNames) :
    q ∈ targetsOf (CleanCommand.run c d fs) ↔
      (∃ n, n ∈ names ∧ strEndsWith n ".egg-info" = true ∧
        osPathJoin base n = q) ∨
      (∃ n, n ∈ cwdNames ∧ strEndsWith n ".egg" = true ∧ n = q) := by
  have hbd : eggBaseDir c = base := by simp [eggBaseDir, hbase]
  have hb := buildTargets_eggs_true (d := d) heggs (hbd ▸ h1) h2
  have hrun : targetsOf (CleanCommand.run c d fs) =
      envAdd c (eggTargets c names cwdNames (distTargets c d)) := by
    simp [CleanCommand.run, hb, targetsOf]
  rw [hrun, envAdd_of_not_env _ henv, distTargets_of_not_dist d hdist,
    mem_eggTargets, hbd]
  simp [eggInfoCond, eggCond]

theorem claim_eggs_targets_witness :
    "pkg/foo.egg-info" ∈ targetsOf (CleanCommand.run cfgEggs distEmpty fsEggs) ∧
    "baz.egg" ∈ targetsOf (CleanCommand.run cfgEggs distEmpty fsEggs) ∧
    "pkg/bar.txt" ∉ targetsOf (CleanCommand.run cfgEggs distEmpty fsEggs) := by
  refine ⟨?_, ?_, fun hmem => ?_⟩
  · exact (claim_eggs_targets cfgEggs distEmpty fsEggs "pkg"
      ["foo.egg-info", "bar.txt"] ["baz.egg"] "pkg/foo.egg-info"
      rfl rfl rfl rfl rfl rfl).mpr (by decide)
  · exact (claim_eggs_targets cfgEggs distEmpty fsEggs "pkg"
      ["foo.egg-info", "bar.txt"] ["baz.egg"] "baz.egg"
      rfl rfl rfl rfl rfl rfl).mpr (by decide)
  · exact absurd ((claim_eggs_targets cfgEggs distEmpty fsEggs "pkg"
      ["foo.egg-info", "bar.txt"] ["baz.egg"] "pkg/bar.txt"
      rfl rfl rfl rfl rfl rfl).mp hmem) (by decide)

/-- C4: with `--dist` (and the other flags off), the target set holds exactly
the `dist_dir` of every registered sub-command whose name contains the
substring `dist` and whose command object has a non-empty `dist_dir`
attribute; a sub-command with no such attribute, or with an empty one,
contributes nothing. -/
theorem claim_dist_targets (c : Config) (d : Distribution) (fs : FS)
    (q : String) (hdist : c.dist = true) (heggs : c.eggs = false)
    (henv : c.environment = false) :
    q ∈ targetsOf (CleanCommand.run c d fs) ↔
      ∃ cmd, cmd ∈ d.commands ∧ strContains cmd.name "dist" = true ∧
        cmd.dist_dir = some q ∧ q ≠ "" := by
  have hb := buildTargets_eggs_false d fs heggs
  have hrun : targetsOf (CleanCommand.run c d fs) =
      envAdd c (distTargets c d) := by
    simp [CleanCommand.run, hb, targetsOf]
  rw [hrun, envAdd_of_not_env _ henv, mem_distTargets hdist]
  constructor
  · rintro ⟨cmd, hm, hc, hv⟩
    obtain ⟨g1, g2, g3⟩ := (distDirCond_val_iff cmd q).mp ⟨hc, hv⟩
    exact ⟨cmd, hm, g1, g2, g3⟩
  · rintro ⟨cmd, hm, g1, g2, g3⟩
    obtain ⟨hc, hv⟩ := (distDirCond_val_iff cmd q).mpr ⟨g1, g2, g3⟩
    exact ⟨cmd, hm, hc, hv⟩

theorem claim_dist_targets_witness :
    "build/out" ∈ targetsOf (CleanCommand.run cfgDist distMixed fsEmpty) ∧
    "elsewhere" ∉ targetsOf (CleanCommand.run cfgDist distMixed fsEmpty) ∧
    "" ∉ targetsOf (CleanCommand.run cfgDist distMixed fsEmpty) := by
  refine ⟨?_, fun hmem => ?_, fun hmem => ?_⟩
  · exact (claim_dist_targets cfgDist distMixed fsEmpty "build/out"
      rfl rfl rfl).mpr ⟨⟨"bdist", some "build/out"⟩, by decide⟩
  · exact absurd ((claim_dist_targets cfgDist distMixed fsEmpty "elsewhere"
      rfl rfl rfl).mp hmem) (by decide)
  · exact absurd ((claim_dist_targets cfgDist distMixed fsEmpty ""
      rfl rfl rfl).mp hmem) (by decide)

/-- C5: with `--environment` set, `finalize_options` fills an unset
`virtualenv_dir` from the `VIRTUAL_ENV` environment variable; when that
variable is absent and no explicit directory was given, `virtualenv_dir`
stays unset and `run` schedules nothing; and whenever the finalized
`virtualenv_dir` is non-empty it enters the target set. -/
theorem claim_environment_targets (c : Config)
    (sib : Except Unit (Option String)) (venv : Option String)
    (d : Distribution) (fs : FS) (henv : c.environment = true) :
    (c.virtualenv_dir = none →
      (CleanCommand.finalize_options c sib venv).virtualenv_dir = venv) ∧
    (c.virtualenv_dir = none → venv = none → c.dist = false →
      c.eggs = false →
      CleanCommand.run (CleanCommand.finalize_options c sib venv) d fs =
        Except.ok { targets := [], removed := [], msgs := [], fs := fs }) ∧
    (∀ v ts,
      (CleanCommand.finalize_options c sib venv).virtualenv_dir = some v →
      v ≠ "" →
      CleanCommand.buildTargets (CleanCommand.finalize_options c sib venv)
        d fs = Except.ok ts →
      v ∈ ts) := by
  have hfill : c.virtualenv_dir = none →
      (CleanCommand.finalize_options c sib venv).virtualenv_dir = venv := by
    intro h
    simp [CleanCommand.finalize_options, henv, h]
  refine ⟨hfill, ?_, ?_⟩
  · intro h hv hd he
    have e1 : (CleanCommand.finalize_options c sib venv).dist = false := by
      rw [finalize_options_dist]; exact hd
    have e2 : (CleanCommand.finalize_options c sib venv).eggs = false := by
      rw [finalize_options_eggs]; exact he
    have e4 : (CleanCommand.finalize_options c sib venv).virtualenv_dir
        = none := by rw [hfill h]; exact hv
    have hb : CleanCommand.buildTargets
        (CleanCommand.finalize_options c sib venv) d fs = Except.ok [] := by
      rw [buildTargets_eggs_false d fs e2, distTargets_of_not_dist d e1,
        envAdd_of_venv_none [] e4]
    simp [CleanCommand.run, hb, removeLoop]
  · intro v ts hv hne hb
    obtain ⟨ts0, rfl⟩ := buildTargets_ok_shape hb
    have e3 : (CleanCommand.finalize_options c sib venv).environment
        = true := by rw [finalize_options_environment]; exact henv
    exact mem_envAdd_self ts0 e3 hv hne

theorem claim_environment_targets_witness :
    (CleanCommand.finalize_options cfgEnv (Except.ok none)
      (some "/tmp/venv")).virtualenv_dir = some "/tmp/venv" ∧
    "/tmp/venv" ∈ (["/tmp/venv"] : List String) := by
  have h := claim_environment_targets cfgEnv (Except.ok none)
    (some "/tmp/venv") distEmpty fsEmpty rfl
  exact ⟨h.1 rfl, h.2.2 "/tmp/venv" ["/tmp/venv"] (h.1 rfl) (by decide) rfl⟩

/-- C6: in a non-dry run, a target that does not exist is announced as
skipped, is never removed and raises no error, while any other target that
exists (and does not lie under another target) is still removed. -/
theorem claim_missing_target_skipped (c : Config) (d : Distribution)
    (fs : FS) (p q : String) (hdry : c.dry_run = false)
    (hp : p ∈ targetsOf (CleanCommand.run c d fs))
    (hnp : fs.pathExists p = false) :
    Msg.skipping p ∈ msgsOf (CleanCommand.run c d fs) ∧
    p ∉ removedOf (CleanCommand.run c d fs) ∧
    (q ∈ targetsOf (CleanCommand.run c d fs) → fs.pathExists q = true →
      (∀ r ∈ targetsOf (CleanCommand.run c d fs), r ≠ q →
        pathUnder r q = false) →
      q ∈ removedOf (CleanCommand.run c d fs)) := by
  cases hb : CleanCommand.buildTargets c d fs with
  | error e =>
    have ht : targetsOf (CleanCommand.run c d fs) = [] := by
      simp [CleanCommand.run, hb, targetsOf]
    rw [ht] at hp
    cases hp
  | ok ts =>
    have ht : targetsOf (CleanCommand.run c d fs) = ts := by
      simp [CleanCommand.run, hb, targetsOf]
    have hm : msgsOf (CleanCommand.run c d fs) =
        (removeLoop c.dry_run ts fs).2.2 := by
      simp [CleanCommand.run, hb, msgsOf]
    have hrm : removedOf (CleanCommand.run c d fs) =
        (removeLoop c.dry_run ts fs).2.1 := by
      simp [CleanCommand.run, hb, removedOf]
    rw [ht] at hp
    rw [ht, hm, hrm, hdry]
    exact ⟨skipping_mem_removeLoop hp hnp, not_mem_removeLoop_removed hnp,
      fun hq hex hsep => mem_removeLoop_removed hq hex hsep⟩

theorem claim_missing_target_skipped_witness :
    Msg.skipping "gone" ∈
      msgsOf (CleanCommand.run cfgDist distSkip fsSkip) ∧
    "gone" ∉ removedOf (CleanCommand.run cfgDist distSkip fsSkip) ∧
    "out1" ∈ removedOf (CleanCommand.run cfgDist distSkip fsSkip) := by
  have h := claim_missing_target_skipped cfgDist distSkip fsSkip
    "gone" "out1" rfl (by decide) rfl
  exact ⟨h.1, h.2.1, h.2.2 (by decide) rfl (by decide)⟩

/-- C2 as stated is false: dry-run suppresses mutation, but the skip/announce
messages are not always "exactly as in a non-dry run".  With `--dist --eggs`,
a dist sub-command whose `dist_dir` is `pkg` and an egg scan contributing
`pkg/foo.egg-info`, every target exists beforehand, yet the non-dry run
removes `pkg` first and then announces the nested `pkg/foo.egg-info` as
skipped, while the dry run announces both as being removed. -/
theorem claim_dry_run_messages_counterexample :
    cfgNested.dry_run = true ∧ cfgNested.dist = true ∧ cfgNested.eggs = true ∧
    targetsOf (CleanCommand.run cfgNested distNested fsNested) =
      ["pkg", "pkg/foo.egg-info"] ∧
    fsNested.pathExists "pkg" = true ∧
    fsNested.pathExists "pkg/foo.egg-info" = true ∧
    msgsOf (CleanCommand.run cfgNested distNested fsNested) =
      [Msg.removing "pkg", Msg.removing "pkg/foo.egg-info"] ∧
    msgsOf (CleanCommand.run { cfgNested with dry_run := false } distNested
        fsNested) =
      [Msg.removing "pkg", Msg.skipping "pkg/foo.egg-info"] ∧
    msgsOf (CleanCommand.run cfgNested distNested fsNested) ≠
      msgsOf (CleanCommand.run { cfgNested with dry_run := false } distNested
        fsNested) :=
  ⟨rfl, rfl, rfl, rfl, rfl, rfl, rfl, rfl, by decide⟩

/-- C2 (amended): with `dry_run` true, `run` performs no filesystem mutation
and removes nothing, and still announces exactly one message per target; when
additionally every target exists and no target lies under another one, the
announcements coincide exactly with those of the corresponding non-dry run.
(The original claim fails when a target is nested inside an earlier one: the
non-dry run then announces the nested target as skipped — see the
counterexample.) -/
theorem claim_dry_run_no_mutation (c : Config) (d : Distribution) (fs : FS)
    (hdry : c.dry_run = true) :
    removedOf (CleanCommand.run c d fs) = [] ∧
    fsOf (CleanCommand.run c d fs) fs = fs ∧
    (msgsOf (CleanCommand.run c d fs)).map Msg.path =
      targetsOf (CleanCommand.run c d fs) ∧
    ((∀ p ∈ targetsOf (CleanCommand.run c d fs), fs.pathExists p = true) →
     (∀ p ∈ targetsOf (CleanCommand.run c d fs),
        ∀ q ∈ targetsOf (CleanCommand.run c d fs), p ≠ q →
          pathUnder p q = false) →
     msgsOf (CleanCommand.run { c with dry_run := false } d fs) =
       msgsOf (CleanCommand.run c d fs)) := by
  cases hb : CleanCommand.buildTargets c d fs with
  | error e =>
    have hb' : CleanCommand.buildTargets { c with dry_run := false } d fs =
        Except.error e := by
      rw [buildTargets_dry_run_irrel]; exact hb
    simp [CleanCommand.run, hb, hb', removedOf, fsOf, msgsOf, targetsOf]
  | ok ts =>
    have hb' : CleanCommand.buildTargets { c with dry_run := false } d fs =
        Except.ok ts := by
      rw [buildTargets_dry_run_irrel]; exact hb
    have ht : targetsOf (CleanCommand.run c d fs) = ts := by
      simp [CleanCommand.run, hb, targetsOf]
    refine ⟨?_, ?_, ?_, ?_⟩
    · simp [CleanCommand.run, hb, removedOf, hdry, removeLoop_dry_removed]
    · simp [CleanCommand.run, hb, fsOf, hdry, removeLoop_dry_fs]
    · simp [CleanCommand.run, hb, msgsOf, targetsOf, removeLoop_msgs_path]
    · rw [ht]
      intro hex hsep
      have hwet : msgsOf (CleanCommand.run { c with dry_run := false } d fs) =
          (removeLoop false ts fs).2.2 := by
        simp [CleanCommand.run, hb', msgsOf]
      have hdm : msgsOf (CleanCommand.run c d fs) =
          (removeLoop true ts fs).2.2 := by
        simp [CleanCommand.run, hb, msgsOf, hdry]
      rw [hwet, hdm, removeLoop_wet_msgs (buildTargets_ok_nodup hb) hex hsep,
        removeLoop_dry_msgs]
      exact (List.map_congr_left fun p hp => by simp [hex p hp]).symm

theorem claim_dry_run_no_mutation_witness :
    removedOf (CleanCommand.run cfgDryEnv distEmpty fsVenv) = [] ∧
    msgsOf (CleanCommand.run { cfgDryEnv with dry_run := false } distEmpty
        fsVenv) =
      msgsOf (CleanCommand.run cfgDryEnv distEmpty fsVenv) := by
  have h := claim_dry_run_no_mutation cfgDryEnv distEmpty fsVenv rfl
  exact ⟨h.1, h.2.2.2 (by decide) (by decide)⟩

end Janitor
